import Mathlib

/-!
# Verification of the btrfs userspace reader core

A shallow embedding, in Lean, of the core read path of a Rust userspace
BTRFS reader (superblock parsing and validation, the chunk manager's
logical-to-physical translation, the B-tree search engine, the item
decoders, the namespace and file-read operations, and the compression
dispatch), together with theorems settling the specification claims
against this embedding.

Conventions of the embedding:
* machine integers (`u8`/`u16`/`u32`/`u64`/`usize`) are modelled as `Nat`;
  where a Rust `as u32` truncation matters it is written `% 2^32`;
* byte buffers are `List Nat` (each entry one byte);
* fallible Rust functions returning `Result<T, BtrfsError>` are modelled
  with `Outcome`, which distinguishes a returned error from a Rust panic
  (out-of-bounds indexing, division by zero);
* the human-readable message strings carried by some `BtrfsError`
  variants are elided: no claim inspects them.
-/

namespace BtrfsVerify

/-- The error taxonomy of `core/mod.rs` (`enum BtrfsError`), with message
strings elided and only the payloads that claims inspect retained. -/
inductive BtrfsError where
  | ioErr
  | invalidMagic
  | checksumMismatch (expected actual : Nat)
  | unsupportedFeature
  | corrupt
  | notFound
  | invalidTreeType (t : Nat)
  | decompressionError
  | unsupportedCompression (value : Nat)
  | invalidInode (ino : Nat)
  | notADirectory
  | notAFile
deriving DecidableEq, Repr

/-- Outcome of running a fallible Rust function: a value, a returned
`BtrfsError`, or a panic (index out of bounds, division by zero). -/
inductive Outcome (α : Type) where
  | ok (a : α)
  | err (e : BtrfsError)
  | panic
deriving DecidableEq, Repr

/-- Byte at index `i` of a buffer (buffers are total here; all accesses in
the embedded code are either bounds-guarded by the source or modelled as
explicit panics). -/
def byteAt (l : List Nat) (i : Nat) : Nat := l.getD i 0

/-- Little-endian read of `n` bytes starting at `off`
(`byteorder::LittleEndian::read_uXX`). -/
def readLE (l : List Nat) (off : Nat) : Nat → Nat
  | 0 => 0
  | n + 1 => byteAt l off + 256 * readLE l (off + 1) n

/-- `LittleEndian::read_u16`. -/
def readLE16 (l : List Nat) (off : Nat) : Nat := readLE l off 2

/-- `LittleEndian::read_u32`. -/
def readLE32 (l : List Nat) (off : Nat) : Nat := readLE l off 4

/-- `LittleEndian::read_u64`. -/
def readLE64 (l : List Nat) (off : Nat) : Nat := readLE l off 8

/-- Little-endian encoding of `v` into `n` bytes (`to_le_bytes`). -/
def toLE (v : Nat) : Nat → List Nat
  | 0 => []
  | n + 1 => v % 256 :: toLE (v / 256) n

/-- `u32::to_le_bytes`. -/
def toLE32 (v : Nat) : List Nat := toLE v 4

/-- The Rust slice `l[a..b]`. -/
def extract (l : List Nat) (a b : Nat) : List Nat := (l.drop a).take (b - a)

/-- Overwrite bytes of `l` starting at `off` with `vals`
(`l[off..off+vals.len()].copy_from_slice(vals)`). -/
def writeBytes (l : List Nat) (off : Nat) (vals : List Nat) : List Nat :=
  l.take off ++ vals ++ l.drop (off + vals.length)

/-! ## CRC32c (Castagnoli), the contract of the external `crc32c` crate
used by `core/checksum.rs` (reflected polynomial `0x82F63B78`,
initial value and final xor `0xFFFFFFFF`). -/

/-- One shift-and-conditionally-xor round of reflected CRC32c. -/
def crcRound (c : Nat) : Nat :=
  if c % 2 = 1 then (c / 2) ^^^ 0x82F63B78 else c / 2

/-- `n` CRC rounds. -/
def crcRounds : Nat → Nat → Nat
  | 0, c => c
  | n + 1, c => crcRounds n (crcRound c)

/-- Fold one byte into the running CRC. -/
def crc32cStep (crc b : Nat) : Nat := crcRounds 8 (crc ^^^ b % 256)

/-- `crc32c(data)` as computed by `core/checksum.rs` via the `crc32c`
crate. -/
def crc32c (data : List Nat) : Nat :=
  (data.foldl crc32cStep 0xFFFFFFFF) ^^^ 0xFFFFFFFF

/-! ## Keys (`core/tree.rs`, `BtrfsKey`)

`#[derive(PartialOrd, Ord)]` on `struct BtrfsKey { objectid, item_type,
offset }` yields the lexicographic order on the field tuple. -/

/-- `BtrfsKey`: the ordered `(objectid, type, offset)` triple. -/
structure KeyV where
  objectid : Nat
  itemType : Nat
  offset : Nat
deriving DecidableEq, Repr

/-- The derived lexicographic strict order on `BtrfsKey`. -/
def keyLt (a b : KeyV) : Prop :=
  a.objectid < b.objectid ∨
    (a.objectid = b.objectid ∧
      (a.itemType < b.itemType ∨
        (a.itemType = b.itemType ∧ a.offset < b.offset)))

instance (a b : KeyV) : Decidable (keyLt a b) := by
  unfold keyLt; infer_instance

/-- The derived `<=` on `BtrfsKey`. -/
def keyLe (a b : KeyV) : Prop := keyLt a b ∨ a = b

instance (a b : KeyV) : Decidable (keyLe a b) := by
  unfold keyLe; infer_instance

/-! ## Superblock (`core/superblock.rs`)

The superblock is modelled as its raw 4096 bytes; the accessors read the
fields at the offsets fixed by the packed `SuperblockRaw` layout
(`#[repr(C, packed)]`, zerocopy `read_from_bytes`). -/

/-- `BTRFS_MAGIC`: the bytes of `"_BHRfS_M"`. -/
def BTRFS_MAGIC : List Nat := [0x5F, 0x42, 0x48, 0x52, 0x66, 0x53, 0x5F, 0x4D]

/-- `SUPERBLOCK_OFFSET = 0x10000`. -/
def SUPERBLOCK_OFFSET : Nat := 0x10000

/-- `SUPERBLOCK_SIZE = 0x1000`. -/
def SUPERBLOCK_SIZE : Nat := 0x1000

/-- A parsed `Superblock`: the raw 4096-byte image (the packed
`SuperblockRaw` is a field-for-field view of these bytes). -/
structure SuperblockV where
  raw : List Nat
deriving DecidableEq, Repr

namespace SuperblockV

/-- `generation()`: u64 at offset 0x48 of the packed layout. -/
def generation (sb : SuperblockV) : Nat := readLE64 sb.raw 0x48

/-- `root()`: logical address of the root tree root, u64 at 0x50. -/
def root (sb : SuperblockV) : Nat := readLE64 sb.raw 0x50

/-- `chunk_root()`: u64 at 0x58. -/
def chunkRoot (sb : SuperblockV) : Nat := readLE64 sb.raw 0x58

/-- `total_bytes()`: u64 at 0x70. -/
def totalBytes (sb : SuperblockV) : Nat := readLE64 sb.raw 0x70

/-- `bytes_used()`: u64 at 0x78. -/
def bytesUsed (sb : SuperblockV) : Nat := readLE64 sb.raw 0x78

/-- `sector_size()`: u32 at 0x90. -/
def sectorSize (sb : SuperblockV) : Nat := readLE32 sb.raw 0x90

/-- `node_size()`: u32 at 0x94. -/
def nodeSize (sb : SuperblockV) : Nat := readLE32 sb.raw 0x94

/-- `sys_chunk_array_size()`: u32 at 0xA0. -/
def sysChunkArraySize (sb : SuperblockV) : Nat := readLE32 sb.raw 0xA0

/-- `csum_type()`: u16 at 0xC4. -/
def csumType (sb : SuperblockV) : Nat := readLE16 sb.raw 0xC4

/-- `root_level()`: u8 at 0xC6. -/
def rootLevel (sb : SuperblockV) : Nat := byteAt sb.raw 0xC6

/-- `chunk_root_level()`: u8 at 0xC7. -/
def chunkRootLevel (sb : SuperblockV) : Nat := byteAt sb.raw 0xC7

/-- `sys_chunk_array()`: `&raw.sys_chunk_array[..sys_chunk_array_size]`.
The backing field is the 0x800 bytes at offset 0x32B; slicing it with a
declared size above 0x800 is an out-of-bounds panic in Rust. -/
def sysChunkArray (sb : SuperblockV) : Outcome (List Nat) :=
  if sb.sysChunkArraySize ≤ 0x800 then
    .ok (extract sb.raw 0x32B (0x32B + sb.sysChunkArraySize))
  else .panic

end SuperblockV

/-- `Superblock::parse(data)`: size gate, zerocopy view of the first
0x1000 bytes, magic check at 0x40, then `verify_checksum(data)`
(csum-type gate, then CRC32c over `data[0x20..0x1000]` against the
little-endian u32 in the first four bytes). -/
def superblockParse (data : List Nat) : Outcome SuperblockV :=
  if data.length < SUPERBLOCK_SIZE then .err .corrupt
  else
    let raw := data.take SUPERBLOCK_SIZE
    if extract raw 0x40 0x48 ≠ BTRFS_MAGIC then .err .invalidMagic
    else
      let sb : SuperblockV := ⟨raw⟩
      if sb.csumType ≠ 0 then .err .unsupportedFeature
      else
        let expected := readLE32 data 0
        let actual := crc32c (extract data 0x20 SUPERBLOCK_SIZE)
        if expected ≠ actual then .err (.checksumMismatch expected actual)
        else .ok sb

/-- `Superblock::read(device)`: read 4096 bytes at physical offset
0x10000 and parse them. The device is modelled as the total byte map
`dev : Nat → Nat`. -/
def superblockRead (dev : Nat → Nat) : Outcome SuperblockV :=
  superblockParse ((List.range SUPERBLOCK_SIZE).map (fun i => dev (SUPERBLOCK_OFFSET + i)))

/-- Fixture: a zeroed 4096-byte superblock image with the magic at 0x40
and a declared `sys_chunk_array_size` of 3000 at 0xA0 (csum type at 0xC4
stays 0), before the checksum is filled in. -/
def sbOverBase : List Nat :=
  List.replicate 0x40 0 ++ BTRFS_MAGIC ++ List.replicate 88 0 ++
    toLE32 3000 ++ List.replicate 3932 0

/-- Fixture: `sbOverBase` with a correct CRC32c spliced into its first
four bytes, so that every validation step of `Superblock::parse`
succeeds while `sys_chunk_array_size` still reads 3000 (> 0x800). -/
def sbOver : List Nat :=
  toLE32 (crc32c (sbOverBase.drop 0x20)) ++ sbOverBase.drop 4

/-! ## Chunk manager (`core/chunk.rs`)

`ChunkTree` keeps an ordered map `logical → ChunkMapping`
(`BTreeMap<u64, ChunkMapping>`), modelled here as an association list
with the `range(..=addr).next_back()` lookup made explicit. -/

/-- `chunk_type::RAID0`. -/
def CT_RAID0 : Nat := 8

/-- `chunk_type::RAID1`. -/
def CT_RAID1 : Nat := 16

/-- `chunk_type::DUP`. -/
def CT_DUP : Nat := 32

/-- A `Stripe` of a chunk. -/
structure StripeV where
  devid : Nat
  offset : Nat
  devUuid : List Nat
deriving DecidableEq, Repr

/-- A `ChunkMapping` entry. -/
structure ChunkMappingV where
  logical : Nat
  size : Nat
  stripeLen : Nat
  typeFlags : Nat
  numStripes : Nat
  subStripes : Nat
  stripes : List StripeV
deriving DecidableEq, Repr

/-- `self.chunks.range(..=addr).next_back()`: the map entry with the
greatest key `≤ addr`, over an association-list model of the
`BTreeMap`. -/
def findChunk : List (Nat × ChunkMappingV) → Nat → Option (Nat × ChunkMappingV)
  | [], _ => none
  | (k, v) :: rest, addr =>
    match findChunk rest addr with
    | none => if k ≤ addr then some (k, v) else none
    | some (k2, v2) =>
      if k ≤ addr ∧ k2 < k then some (k, v) else some (k2, v2)

/-- `ChunkTree::logical_to_physical(logical)`: candidate chunk is the
greatest key `≤ addr`; NOT_FOUND when there is none or the address lies
past the candidate's range; then one branch per RAID class exactly as in
the source, collecting plain physical offsets (`Vec<u64>`). Rust's
division/remainder by zero in the RAID0 branch is modelled as a panic. -/
def logicalToPhysical (chunks : List (Nat × ChunkMappingV)) (addr : Nat) :
    Outcome (List Nat) :=
  match findChunk chunks addr with
  | none => .err .notFound
  | some (_, chunk) =>
    if chunk.logical + chunk.size ≤ addr then .err .notFound
    else
      let off := addr - chunk.logical
      if chunk.typeFlags &&& CT_RAID0 ≠ 0 then
        if chunk.stripeLen = 0 ∨ chunk.numStripes = 0 then .panic
        else
          let stripeNr := off / chunk.stripeLen
          let stripeOff := off % chunk.stripeLen
          let idx := stripeNr % chunk.numStripes
          let addrs := if h : idx < chunk.stripes.length then
              [(chunk.stripes.get ⟨idx, h⟩).offset +
                (stripeNr / chunk.numStripes) * chunk.stripeLen + stripeOff]
            else []
          if addrs.isEmpty then .err .notFound else .ok addrs
      else if chunk.typeFlags &&& (CT_RAID1 ||| CT_DUP) ≠ 0 then
        let addrs := chunk.stripes.map (fun s => s.offset + off)
        if addrs.isEmpty then .err .notFound else .ok addrs
      else
        match chunk.stripes.head? with
        | some s =>
          let addrs := [s.offset + off]
          if addrs.isEmpty then .err .notFound else .ok addrs
        | none => .err .notFound

/-- Modelled from the spec, §4.4: the translation as the spec words it,
returning `(devid, physical)` pairs. Used only as the refinement
comparison point for the source's `Vec<u64>` return value. -/
def logicalToPhysicalSpec (chunks : List (Nat × ChunkMappingV)) (addr : Nat) :
    Outcome (List (Nat × Nat)) :=
  match findChunk chunks addr with
  | none => .err .notFound
  | some (_, chunk) =>
    if chunk.logical + chunk.size ≤ addr then .err .notFound
    else
      let off := addr - chunk.logical
      if chunk.typeFlags &&& CT_RAID0 ≠ 0 then
        if chunk.stripeLen = 0 ∨ chunk.numStripes = 0 then .panic
        else
          let stripeNr := off / chunk.stripeLen
          let stripeOff := off % chunk.stripeLen
          let idx := stripeNr % chunk.numStripes
          let addrs := if h : idx < chunk.stripes.length then
              [((chunk.stripes.get ⟨idx, h⟩).devid,
                (chunk.stripes.get ⟨idx, h⟩).offset +
                  (stripeNr / chunk.numStripes) * chunk.stripeLen + stripeOff)]
            else []
          if addrs.isEmpty then .err .notFound else .ok addrs
      else if chunk.typeFlags &&& (CT_RAID1 ||| CT_DUP) ≠ 0 then
        let addrs := chunk.stripes.map (fun s => (s.devid, s.offset + off))
        if addrs.isEmpty then .err .notFound else .ok addrs
      else
        match chunk.stripes.head? with
        | some s =>
          let addrs := [(s.devid, s.offset + off)]
          if addrs.isEmpty then .err .notFound else .ok addrs
        | none => .err .notFound

/-- Fixture: a DUP chunk at logical 0x1000000 whose two stripes live on
devices 1 and 2. -/
def chunksDevA : List (Nat × ChunkMappingV) :=
  [(0x1000000,
    ⟨0x1000000, 0x10000000, 0x10000, CT_DUP, 2, 0,
      [⟨1, 0x100000, []⟩, ⟨2, 0x20000000, []⟩]⟩)]

/-- Fixture: the same chunk geometry with the stripes on devices 7
and 8. -/
def chunksDevB : List (Nat × ChunkMappingV) :=
  [(0x1000000,
    ⟨0x1000000, 0x10000000, 0x10000, CT_DUP, 2, 0,
      [⟨7, 0x100000, []⟩, ⟨8, 0x20000000, []⟩]⟩)]

/-- Fixture: the single-stripe chunk of spec scenario S5. -/
def chunksSingle : List (Nat × ChunkMappingV) :=
  [(0x1000000,
    ⟨0x1000000, 0x10000000, 0x10000, 1, 1, 0, [⟨1, 0x100000, []⟩]⟩)]

/-! ## B-tree engine (`core/tree.rs`)

The engine is embedded at node granularity: `read_node` (chunk
translation + device read + checksum + header/item parsing) is abstracted
into the tree structure itself, so a fetched node is either a leaf —
carrying the `items()` list, each item header paired with its
`item_data` bytes — or an internal node carrying the `key_ptrs()` list,
each key pointer's `blockptr` resolved to the child node it denotes.
This models the traversal logic of `search_from`, `search_range_from`
and `TreeIterator` exactly, while assuming each node fetch succeeds and
each node parses (fetch failures are orthogonal to the traversal claims
settled here). -/

/-- A leaf `Item` header: key, data offset, data size. -/
structure ItemV where
  key : KeyV
  offset : Nat
  size : Nat
deriving DecidableEq, Repr

/-- A storage-resolved tree node: leaf items with their data slices, or
key pointers with their resolved children. -/
inductive NodeV where
  | leaf (items : List (ItemV × List Nat))
  | internal (ptrs : List (KeyV × NodeV))

/-- Leaf scan of `search_from`: first item whose key equals the target. -/
def leafFind : List (ItemV × List Nat) → KeyV → Option (ItemV × List Nat)
  | [], _ => none
  | (it, d) :: rest, key =>
    if it.key = key then some (it, d) else leafFind rest key

mutual
/-- `BtrfsTree::search_from`: on a leaf, linear scan for the exact key;
on an internal node, `ptrs[0]` (a panic when there are no key pointers),
then the scan `for ptr in &ptrs { if ptr.key > *key { break; }
child_ptr = ptr.blockptr; }`, then descent into the chosen child. The
first loop iteration always leaves `child_ptr = ptrs[0].blockptr`
(whether or not it breaks), so the loop is entered here with the head as
current child and the tail still to scan. -/
def searchFrom (n : NodeV) (key : KeyV) : Outcome (Option (ItemV × List Nat)) :=
  match n with
  | .leaf items => .ok (leafFind items key)
  | .internal ptrs =>
    match ptrs with
    | [] => .panic
    | (_, c) :: rest => searchLoop c rest key
termination_by sizeOf n

/-- The key-pointer scan of `search_from`, carrying the current child. -/
def searchLoop (cur : NodeV) (l : List (KeyV × NodeV)) (key : KeyV) :
    Outcome (Option (ItemV × List Nat)) :=
  match l with
  | [] => searchFrom cur key
  | (k2, c2) :: rest =>
    if keyLt key k2 then searchFrom cur key else searchLoop c2 rest key
termination_by 1 + sizeOf cur + sizeOf l
end

/-- The in-range test of `search_range_from`'s leaf scan:
`item.key >= *min_key && item.key <= *max_key`. -/
def inRangeB (minK maxK : KeyV) (x : ItemV × List Nat) : Bool :=
  decide (keyLe minK x.1.key) && decide (keyLe x.1.key maxK)

mutual
/-- `BtrfsTree::search_range_from`: on a leaf, keep the items inside the
closed range in order; on an internal node, visit each key pointer in
order, recursing only when `ptr.key <= *max_key`. -/
def searchRangeFrom (n : NodeV) (minK maxK : KeyV) : List (ItemV × List Nat) :=
  match n with
  | .leaf items => items.filter (inRangeB minK maxK)
  | .internal ptrs => searchRangeList ptrs minK maxK

/-- The key-pointer loop of `search_range_from` (results accumulate in
traversal order). -/
def searchRangeList (l : List (KeyV × NodeV)) (minK maxK : KeyV) :
    List (ItemV × List Nat) :=
  match l with
  | [] => []
  | (k, c) :: rest =>
    (if keyLe k maxK then searchRangeFrom c minK maxK else []) ++
      searchRangeList rest minK maxK
end

mutual
/-- All items of a tree in traversal (in-order) order. -/
def inorderNode : NodeV → List (ItemV × List Nat)
  | .leaf items => items
  | .internal ptrs => inorderList ptrs

/-- In-order items of a key-pointer list. -/
def inorderList : List (KeyV × NodeV) → List (ItemV × List Nat)
  | [] => []
  | (_, c) :: rest => inorderNode c ++ inorderList rest
end

mutual
/-- Well-formedness of a node: leaf items strictly sorted by key;
each key pointer a lower bound for its subtree, consecutive pointer keys
strictly increasing, and each subtree's keys strictly below the next
pointer's key. This is the B-tree shape invariant the on-disk format
guarantees. -/
def wfNode : NodeV → Bool
  | .leaf items =>
    decide (List.Pairwise keyLt (items.map (fun x => x.1.key)))
  | .internal ptrs => wfPtrs ptrs

/-- Well-formedness of a key-pointer list (see `wfNode`). -/
def wfPtrs : List (KeyV × NodeV) → Bool
  | [] => true
  | (k, c) :: rest =>
    wfNode c &&
    (inorderNode c).all (fun x => decide (keyLe k x.1.key)) &&
    (match rest with
     | [] => true
     | (k2, _) :: _ =>
       decide (keyLt k k2) &&
       (inorderNode c).all (fun x => decide (keyLt x.1.key k2))) &&
    wfPtrs rest
end

/-- The greatest key-pointer whose key is `≤ target` (the descent target
named by the spec); `none` when no pointer key is `≤ target`. -/
def greatestLe (l : List (KeyV × NodeV)) (key : KeyV) :
    Option (KeyV × NodeV) :=
  match l with
  | [] => none
  | p :: rest =>
    match greatestLe rest key with
    | none => if keyLe p.1 key then some p else none
    | some q => if keyLe p.1 key ∧ keyLt q.1 p.1 then some p else some q

/-- `TreeIterator::initialize`: descend to the leftmost leaf, pushing
`(node, 0)` at each level; stop without pushing on an internal node with
no key pointers. The stack's top is the list head. -/
def initDescend : NodeV → List (NodeV × Nat) → List (NodeV × Nat)
  | .leaf items, st => (.leaf items, 0) :: st
  | .internal ptrs, st =>
    match ptrs with
    | [] => st
    | (_, c) :: _ => initDescend c ((.internal ptrs, 0) :: st)

/-- `TreeIterator::next`: yield the current leaf item and advance; on an
exhausted leaf, pop and end the iteration (`// TODO: Implement sibling
traversal` — the source returns `None` here); pop internal nodes and
continue. -/
def iterNext (st : List (NodeV × Nat)) :
    Option ((ItemV × List Nat) × List (NodeV × Nat)) :=
  match st with
  | [] => none
  | (n, idx) :: rest =>
    match n with
    | .leaf items =>
      if h : idx < items.length then
        some (items.get ⟨idx, h⟩, (.leaf items, idx + 1) :: rest)
      else none
    | .internal _ => iterNext rest

/-- Collect the sequence an iteration (`for entry in tree.iter()`)
observes: repeated `next` until the first `None`. The fuel bounds the
number of steps; any fuel at least the item count plus stack depth is
enough. -/
def iterCollect : Nat → List (NodeV × Nat) → List (ItemV × List Nat)
  | 0, _ => []
  | fuel + 1, st =>
    match iterNext st with
    | none => []
    | some (x, st2) => x :: iterCollect fuel st2

/-- All items yielded by `tree.iter()` on the given root. -/
def treeIterItems (root : NodeV) (fuel : Nat) : List (ItemV × List Nat) :=
  iterCollect fuel (initDescend root [])

/-- Fixture: a one-item leaf with key (1,1,0). -/
def leafOneA : NodeV := .leaf [(⟨⟨1, 1, 0⟩, 0, 0⟩, [1])]

/-- Fixture: a one-item leaf with key (2,1,0). -/
def leafOneB : NodeV := .leaf [(⟨⟨2, 1, 0⟩, 0, 0⟩, [2])]

/-- Fixture: a well-formed two-leaf tree (internal root, two leaves). -/
def twoLeafTree : NodeV :=
  .internal [(⟨1, 1, 0⟩, leafOneA), (⟨2, 1, 0⟩, leafOneB)]

/-- Fixture: a leaf holding the single key (1,0,0). -/
def lowLeaf : NodeV := .leaf [(⟨⟨1, 0, 0⟩, 0, 0⟩, [7])]

/-- Fixture: an internal root whose only key pointer carries key
(10,0,0) — greater than the search target used against it. -/
def highRoot : NodeV := .internal [(⟨10, 0, 0⟩, lowLeaf)]

/-! ## Item decoders (`core/inode.rs`) -/

/-- `InodeType`. -/
inductive InodeTypeV where
  | unknown
  | file
  | directory
  | symlink
  | blockDevice
  | charDevice
  | fifo
  | socket
deriving DecidableEq, Repr

/-- `InodeType::from_dir_type`. -/
def inodeTypeFromDirType (t : Nat) : InodeTypeV :=
  match t with
  | 1 => .file
  | 2 => .directory
  | 3 => .charDevice
  | 4 => .blockDevice
  | 5 => .fifo
  | 6 => .socket
  | 7 => .symlink
  | _ => .unknown

/-- A `(sec, nsec)` timestamp; the on-disk `sec` is an `i64`, carried
here as its raw little-endian u64 image (no claim inspects it). -/
structure TimeSpecV where
  sec : Nat
  nsec : Nat
deriving DecidableEq, Repr

/-- An `Inode` as parsed by `Inode::from_bytes`. -/
structure InodeV where
  ino : Nat
  generation : Nat
  transid : Nat
  size : Nat
  nbytes : Nat
  blockGroup : Nat
  nlink : Nat
  uid : Nat
  gid : Nat
  mode : Nat
  rdev : Nat
  flags : Nat
  sequence : Nat
  atime : TimeSpecV
  ctime : TimeSpecV
  mtime : TimeSpecV
  otime : TimeSpecV
deriving DecidableEq, Repr

/-- `Inode::from_bytes(ino, data)`: the source gates on
`data.len() < 160` (CORRUPT), but its `otime` field is then read from
`&data[156..164]` and `&data[164..168]` — so on a buffer of 160 to 167
bytes the slice indexing panics. The last read ends at 168, so any
longer buffer parses with the fixed little-endian field offsets. -/
def inodeFromBytes (ino : Nat) (data : List Nat) : Outcome InodeV :=
  if data.length < 160 then .err .corrupt
  else if data.length < 168 then .panic
  else .ok {
    ino := ino
    generation := readLE64 data 0
    transid := readLE64 data 8
    size := readLE64 data 16
    nbytes := readLE64 data 24
    blockGroup := readLE64 data 32
    nlink := readLE32 data 40
    uid := readLE32 data 44
    gid := readLE32 data 48
    mode := readLE32 data 52
    rdev := readLE64 data 56
    flags := readLE64 data 64
    sequence := readLE64 data 72
    atime := ⟨readLE64 data 120, readLE32 data 128⟩
    ctime := ⟨readLE64 data 132, readLE32 data 140⟩
    mtime := ⟨readLE64 data 144, readLE32 data 152⟩
    otime := ⟨readLE64 data 156, readLE32 data 164⟩ }

/-- A `DirEntry` as parsed by `DirEntry::from_bytes`; the name is kept
as its bytes (the source stores `String::from_utf8_lossy(..)`, and the
name comparison relevant to the claims is byte equality over the ASCII
names used here). -/
structure DirEntryV where
  ino : Nat
  childTree : Nat
  entryType : InodeTypeV
  name : List Nat
deriving DecidableEq, Repr

/-- `DirEntry::from_bytes(data)`: parses ONE directory entry from the
start of the item body — the location key's objectid and offset, then
transid, data_len, name_len, type, and `name_len` name bytes. -/
def dirEntryFromBytes (data : List Nat) : Outcome DirEntryV :=
  if data.length < 30 then .err .corrupt
  else
    let ino := readLE64 data 0
    let childTree := readLE64 data 9
    let nameLen := readLE16 data 27
    let entryType := inodeTypeFromDirType (byteAt data 29)
    if data.length < 30 + nameLen then .err .corrupt
    else .ok ⟨ino, childTree, entryType, extract data 30 (30 + nameLen)⟩

/-- An `ExtentData` as parsed by `ExtentData::from_bytes`. -/
structure ExtentDataV where
  generation : Nat
  ramBytes : Nat
  compression : Nat
  encryption : Nat
  otherEncoding : Nat
  extentType : Nat
  inlineData : Option (List Nat)
  diskBytenr : Option Nat
  diskNumBytes : Option Nat
  offset : Option Nat
  numBytes : Option Nat
deriving DecidableEq, Repr

/-- `ExtentData::from_bytes(data)`: 21-byte prefix; inline extents keep
the remaining bytes as payload, regular/prealloc extents parse 32 more. -/
def extentDataFromBytes (data : List Nat) : Outcome ExtentDataV :=
  if data.length < 21 then .err .corrupt
  else
    let generation := readLE64 data 0
    let ramBytes := readLE64 data 8
    let compression := byteAt data 16
    let encryption := byteAt data 17
    let otherEncoding := readLE16 data 18
    let extentType := byteAt data 20
    if extentType = 0 then
      .ok ⟨generation, ramBytes, compression, encryption, otherEncoding,
        extentType, some (data.drop 21), none, none, none, none⟩
    else
      if data.length < 53 then .err .corrupt
      else
        .ok ⟨generation, ramBytes, compression, encryption, otherEncoding,
          extentType, none, some (readLE64 data 21), some (readLE64 data 29),
          some (readLE64 data 37), some (readLE64 data 45)⟩

/-! ## Namespace and file operations (`fuse/operations.rs`)

The filesystem handle is modelled by the node that the superblock's
root-tree address and level (`fs.superblock().root()`,
`fs.superblock().root_level()`) resolve to — the tree every one of these
operations constructs with `BtrfsTree::new`. -/

/-- `u64::MAX`. -/
def U64MAX : Nat := 18446744073709551615

/-- The filesystem state the operations consult. -/
structure FsV where
  superblockRoot : NodeV

/-- `btrfs_name_hash(name)`: CRC32c of the name bytes, zero-extended to
u64. -/
def btrfsNameHash (name : List Nat) : Nat := crc32c name

/-- `read_inode(fs, tree_id, ino)`: searches key `(ino, INODE_ITEM, 0)`
in the tree rooted at the superblock's root (the `tree_id` argument is
not consulted — `// TODO: Get tree root from root tree`). -/
def readInode (fs : FsV) (treeId : Nat) (ino : Nat) : Outcome InodeV :=
  match searchFrom fs.superblockRoot ⟨ino, 0x01, 0⟩ with
  | .ok (some (_, data)) => inodeFromBytes ino data
  | .ok none => .err (.invalidInode ino)
  | .err e => .err e
  | .panic => .panic

/-- `read_dir(fs, tree_id, ino)`: range scan of
`(ino, DIR_INDEX, 0) ..= (ino, DIR_INDEX, u64::MAX)` over the
superblock-root tree, keeping the entries that parse. -/
def readDir (fs : FsV) (treeId : Nat) (ino : Nat) : Outcome (List DirEntryV) :=
  let items := searchRangeFrom fs.superblockRoot ⟨ino, 0x60, 0⟩ ⟨ino, 0x60, U64MAX⟩
  .ok (items.filterMap (fun x =>
    match dirEntryFromBytes x.2 with
    | .ok entry => some entry
    | _ => none))

/-- `lookup(fs, tree_id, dir_ino, name)`: point search of
`(dir_ino, DIR_ITEM, crc32c(name))` over the superblock-root tree; the
found item body is given to `DirEntry::from_bytes`, which parses only
the FIRST packed entry, and that single entry's name is compared with
the searched name. -/
def lookup (fs : FsV) (treeId : Nat) (dirIno : Nat) (name : List Nat) :
    Outcome DirEntryV :=
  match searchFrom fs.superblockRoot ⟨dirIno, 0x54, btrfsNameHash name⟩ with
  | .ok (some (_, data)) =>
    (match dirEntryFromBytes data with
     | .ok entry => if entry.name = name then .ok entry else .err .notFound
     | .err e => .err e
     | .panic => .panic)
  | .ok none => .err .notFound
  | .err e => .err e
  | .panic => .panic

/-- `read_file_extents(fs, tree_id, ino)`: range scan of
`(ino, EXTENT_DATA, 0) ..= (ino, EXTENT_DATA, u64::MAX)` over the
superblock-root tree, keeping the extents that parse. -/
def readFileExtents (fs : FsV) (treeId : Nat) (ino : Nat) :
    Outcome (List ExtentDataV) :=
  let items := searchRangeFrom fs.superblockRoot ⟨ino, 0x6C, 0⟩ ⟨ino, 0x6C, U64MAX⟩
  .ok (items.filterMap (fun x =>
    match extentDataFromBytes x.2 with
    | .ok extent => some extent
    | _ => none))

/-- The copy loop of `read_file_data`: only inline extents contribute
(`// TODO: Handle extent reading with decompression`); each copies
`min(data.len(), size − bytes_read)` bytes into the output buffer. The
zero-filled `vec![0; size]` plus final `truncate(bytes_read)` is exactly
the concatenation of the copied prefixes. -/
def rfdLoop (extents : List ExtentDataV) (size : Nat) (acc : List Nat) :
    List Nat :=
  match extents with
  | [] => acc
  | e :: rest =>
    if e.extentType = 0 then
      match e.inlineData with
      | some d => rfdLoop rest size (acc ++ d.take (min d.length (size - acc.length)))
      | none => rfdLoop rest size acc
    else rfdLoop rest size acc

/-- `read_file_data(fs, tree_id, ino, offset, size)`. Note that the
`offset` argument is never used by the body. -/
def readFileData (fs : FsV) (treeId : Nat) (ino : Nat) (offset : Nat)
    (size : Nat) : Outcome (List Nat) :=
  match readFileExtents fs treeId ino with
  | .ok extents => .ok (rfdLoop extents size [])
  | .err e => .err e
  | .panic => .panic

/-- One packed on-disk directory entry (location key objectid `ino`,
location type INODE_ITEM, location offset 5, transid 100, data_len 0,
entry type File, then the name bytes). -/
def mkDirEntryBytes (ino : Nat) (name : List Nat) : List Nat :=
  toLE ino 8 ++ [0x01] ++ toLE 5 8 ++ toLE 100 8 ++ toLE 0 2 ++
    toLE name.length 2 ++ [1] ++ name

/-- Fixture: a DIR_ITEM body packing two entries — name "aa" (inode
300) first, name "bb" (inode 301) second. -/
def dirBodyAB : List Nat :=
  mkDirEntryBytes 300 [97, 97] ++ mkDirEntryBytes 301 [98, 98]

/-- Fixture: a filesystem whose root tree is one leaf holding a single
DIR_ITEM keyed by the hash of "bb" whose body packs the two entries of
`dirBodyAB`. -/
def fsAB : FsV :=
  ⟨.leaf [(⟨⟨256, 0x54, btrfsNameHash [98, 98]⟩, 0, 60⟩, dirBodyAB)]⟩

/-- Fixture: a 168-byte inode item body with `size = 3` (168 bytes, not
the 160-byte minimum of the length gate, so that the otime reads of
`Inode::from_bytes` stay in bounds — the layout the repository's own
tests use). -/
def inodeBytesSize3 : List Nat :=
  List.replicate 16 0 ++ toLE 3 8 ++ List.replicate 144 0

/-- Fixture: an inline EXTENT_DATA body with `ram_bytes = 5` and the
five payload bytes 10, 20, 30, 40, 50. -/
def inlineExtentBytes : List Nat :=
  List.replicate 8 0 ++ toLE 5 8 ++ [0, 0, 0, 0, 0] ++ [10, 20, 30, 40, 50]

/-- Fixture: a filesystem whose root tree is one leaf holding inode 256
(declared size 3) and its 5-byte inline extent. -/
def fsInline : FsV :=
  ⟨.leaf [(⟨⟨256, 0x01, 0⟩, 0, 168⟩, inodeBytesSize3),
    (⟨⟨256, 0x6C, 0⟩, 0, 26⟩, inlineExtentBytes)]⟩

/-! ## Byte-level leaf access (`TreeNode::item_data`, claim C10) -/

/-- `NODE_HEADER_SIZE = 0x65`. -/
def NODE_HEADER_SIZE : Nat := 101

/-- A `TreeNode` at byte granularity: its raw node buffer. -/
structure TreeNodeV where
  data : List Nat
deriving DecidableEq, Repr

/-- `TreeNode::item_data(item)`:
`&self.data[NODE_HEADER_SIZE + item.offset ..
NODE_HEADER_SIZE + item.offset + item.size]` — a plain slice with no
bounds check of its own; a slice end past the buffer is a Rust panic,
not a `CORRUPT` error. -/
def itemData (node : TreeNodeV) (item : ItemV) : Outcome (List Nat) :=
  let start := NODE_HEADER_SIZE + item.offset
  let stop := start + item.size
  if stop ≤ node.data.length then .ok (extract node.data start stop)
  else .panic

/-- Fixture: a node buffer of 101 header bytes followed by the five
bytes 1..5. -/
def demoNode : TreeNodeV := ⟨List.replicate 101 0 ++ [1, 2, 3, 4, 5]⟩

/-! ## Compression dispatch (`core/compress.rs`, claim C8)

The zlib, LZ4 and zstd codecs are external crates (`flate2`, `lz4`,
`zstd`), not code of this repository; they enter the embedding as
abstract functions bundled in `Codecs`, `none` denoting a codec
failure. The dispatch, the BTRFS LZO framing (4-byte total length, then
4-byte segment length + segment, both `as u32`) and its segment loop
are translated from the source. -/

/-- `CompressionType`. -/
inductive CompressionTypeV where
  | none
  | zlib
  | lzo
  | zstd
deriving DecidableEq, Repr

/-- The external codec primitives (`flate2`, `lz4::block`, `zstd`). -/
structure Codecs where
  zlibCompress : List Nat → Nat → Option (List Nat)
  zlibDecompress : List Nat → Option (List Nat)
  lz4Compress : List Nat → Option (List Nat)
  lz4Decompress : List Nat → Nat → Option (List Nat)
  zstdCompress : List Nat → Nat → Option (List Nat)
  zstdDecompress : List Nat → Option (List Nat)

/-- The segment loop of `decompress_lzo`: while the source is not
exhausted and the output is shorter than `uncompressed_size`, read a
4-byte little-endian segment length, decode that many bytes with the
LZ4 primitive, and append; break on a truncated header, a zero segment
length, or a segment overrunning the source. -/
def lzoLoop (cx : Codecs) (compressed : List Nat) (uncompressedSize : Nat)
    (offset : Nat) (acc : List Nat) : Outcome (List Nat) :=
  if h : offset < compressed.length ∧ acc.length < uncompressedSize then
    if compressed.length < offset + 4 then .ok acc
    else
      let segmentSize := readLE32 compressed offset
      if hseg : segmentSize = 0 ∨ compressed.length < offset + 4 + segmentSize
      then .ok acc
      else
        let segmentData := extract compressed (offset + 4)
          (offset + 4 + segmentSize)
        match cx.lz4Decompress segmentData uncompressedSize with
        | some seg =>
          lzoLoop cx compressed uncompressedSize (offset + 4 + segmentSize)
            (acc ++ seg)
        | Option.none => .err .decompressionError
  else .ok acc
termination_by compressed.length - offset
decreasing_by
  simp only [not_or] at hseg
  omega

/-- `decompress_lzo(compressed, uncompressed_size)`: 4-byte total-length
header (read but unused), then the segment loop. -/
def decompressLzo (cx : Codecs) (compressed : List Nat)
    (uncompressedSize : Nat) : Outcome (List Nat) :=
  if compressed.length < 4 then .err .decompressionError
  else lzoLoop cx compressed uncompressedSize 4 []

/-- `decompress(compression, compressed, uncompressed_size)`. The
zlib/zstd decoders read the whole stream; `uncompressed_size` is only a
capacity hint to them. -/
def decompress (cx : Codecs) (c : CompressionTypeV) (compressed : List Nat)
    (uncompressedSize : Nat) : Outcome (List Nat) :=
  match c with
  | .none => .ok compressed
  | .zlib =>
    match cx.zlibDecompress compressed with
    | some out => .ok out
    | Option.none => .err .decompressionError
  | .lzo => decompressLzo cx compressed uncompressedSize
  | .zstd =>
    match cx.zstdDecompress compressed with
    | some out => .ok out
    | Option.none => .err .decompressionError

/-- `compress_lzo(data)`: LZ4-compress, then wrap in the BTRFS LZO
framing — `total_size = (4 + 4 + compressed.len()) as u32`, then
`segment_size = compressed.len() as u32`, then the compressed bytes. -/
def compressLzo (cx : Codecs) (data : List Nat) : Outcome (List Nat) :=
  match cx.lz4Compress data with
  | some compressed =>
    .ok (toLE32 ((4 + 4 + compressed.length) % 2 ^ 32) ++
      toLE32 (compressed.length % 2 ^ 32) ++ compressed)
  | Option.none => .err .decompressionError

/-- `compress(compression, data, level)`. -/
def compress (cx : Codecs) (c : CompressionTypeV) (data : List Nat)
    (level : Nat) : Outcome (List Nat) :=
  match c with
  | .none => .ok data
  | .zlib =>
    match cx.zlibCompress data level with
    | some out => .ok out
    | Option.none => .err .decompressionError
  | .lzo => compressLzo cx data
  | .zstd =>
    match cx.zstdCompress data level with
    | some out => .ok out
    | Option.none => .err .decompressionError

/-- Fixture: trivial codec primitives satisfying the round-trip
contracts (identity for zlib/zstd; LZ4 prepends one byte). -/
def cx0 : Codecs :=
  ⟨fun s _ => some s, fun s => some s,
    fun s => some (0 :: s), fun s _ => some s.tail,
    fun s _ => some s, fun s => some s⟩

/-! ## Theorems -/

theorem toLE_length (v n : Nat) : (toLE v n).length = n := by
  induction n generalizing v with
  | zero => rfl
  | succ n ih => simp [toLE, ih]

theorem readLE_toLE_append (v n : Nat) (rest : List Nat) (h : v < 256 ^ n) :
    readLE (toLE v n ++ rest) 0 n = v := by
  induction n generalizing v rest with
  | zero => simp at h; simp [readLE, h]
  | succ n ih =>
    have h1 : readLE (toLE v (n + 1) ++ rest) 1 n = v / 256 := by
      have : toLE v (n + 1) ++ rest = v % 256 :: (toLE (v / 256) n ++ rest) := by
        simp [toLE]
      rw [this]
      have hdiv : v / 256 < 256 ^ n := by
        have hlt : v < 256 ^ n * 256 := by
          have : (256 : Nat) ^ (n + 1) = 256 ^ n * 256 := by ring
          omega
        exact (Nat.div_lt_iff_lt_mul (by norm_num)).mpr hlt
      have := ih (v / 256) rest hdiv
      -- readLE at offset 1 of (x :: l) equals readLE at offset 0 of l
      have shift : ∀ (x : Nat) (l : List Nat) (m off : Nat),
          readLE (x :: l) (off + 1) m = readLE l off m := by
        intro x l m
        induction m with
        | zero => intro off; rfl
        | succ m ihm =>
          intro off
          simp [readLE, byteAt, ihm]
      have := shift (v % 256) (toLE (v / 256) n ++ rest) n 0
      simpa [this] using ih (v / 256) rest hdiv
    simp [readLE, byteAt]
    have hb : byteAt (toLE v (n + 1) ++ rest) 0 = v % 256 := by
      simp [toLE, byteAt]
    simp [byteAt] at hb
    rw [hb, h1]
    omega

/-- Dropping past a prefix of known length. -/
theorem drop_append_of_le (pre l : List Nat) (n : Nat) (h : pre.length ≤ n) :
    (pre ++ l).drop n = l.drop (n - pre.length) := by
  induction pre generalizing n with
  | nil => simp
  | cons x xs ih =>
    cases n with
    | zero => simp at h
    | succ n =>
      simp only [List.cons_append, List.drop_succ_cons]
      have := ih n (by simpa using h)
      simp [this]

theorem byteAt_append_right (pre l : List Nat) (i : Nat) (h : pre.length ≤ i) :
    byteAt (pre ++ l) i = byteAt l (i - pre.length) := by
  simp [byteAt, List.getD]
  rw [List.getElem?_append_right h]

theorem crcRound_lt (c : Nat) (h : c < 2 ^ 32) : crcRound c < 2 ^ 32 := by
  unfold crcRound
  split
  · exact Nat.xor_lt_two_pow (by omega) (by norm_num)
  · omega

theorem crcRounds_lt (n c : Nat) (h : c < 2 ^ 32) : crcRounds n c < 2 ^ 32 := by
  induction n generalizing c with
  | zero => simpa [crcRounds]
  | succ n ih => exact ih _ (crcRound_lt c h)

theorem crc32cStep_lt (crc b : Nat) (h : crc < 2 ^ 32) :
    crc32cStep crc b < 2 ^ 32 := by
  unfold crc32cStep
  have hb : b % 256 < 256 := Nat.mod_lt b (by norm_num)
  exact crcRounds_lt _ _ (Nat.xor_lt_two_pow h (by omega))

theorem crc32c_lt (data : List Nat) : crc32c data < 2 ^ 32 := by
  unfold crc32c
  have : ∀ (l : List Nat) (c : Nat), c < 2 ^ 32 → l.foldl crc32cStep c < 2 ^ 32 := by
    intro l
    induction l with
    | nil => intro c hc; simpa
    | cons x xs ih => intro c hc; exact ih _ (crc32cStep_lt c x hc)
  exact Nat.xor_lt_two_pow (this data _ (by norm_num)) (by norm_num)

theorem keyLt_irrefl (a : KeyV) : ¬ keyLt a a := by
  simp [keyLt]

theorem keyLt_trans {a b c : KeyV} (h1 : keyLt a b) (h2 : keyLt b c) :
    keyLt a c := by
  rcases a with ⟨ao, at', af⟩
  rcases b with ⟨bo, bt, bf⟩
  rcases c with ⟨co, ct, cf⟩
  simp only [keyLt] at *
  omega

theorem keyLt_total (a b : KeyV) : keyLt a b ∨ a = b ∨ keyLt b a := by
  rcases a with ⟨ao, at', af⟩
  rcases b with ⟨bo, bt, bf⟩
  simp only [keyLt, KeyV.mk.injEq]
  omega

theorem keyLe_refl (a : KeyV) : keyLe a a := Or.inr rfl

theorem keyLt_asymm {a b : KeyV} (h : keyLt a b) : ¬ keyLt b a := by
  intro h2
  exact keyLt_irrefl a (keyLt_trans h h2)

theorem keyLe_of_keyLt {a b : KeyV} (h : keyLt a b) : keyLe a b := Or.inl h

theorem keyLt_of_keyLe_of_keyLt {a b c : KeyV} (h1 : keyLe a b)
    (h2 : keyLt b c) : keyLt a c := by
  rcases h1 with h1 | rfl
  · exact keyLt_trans h1 h2
  · exact h2

theorem keyLt_of_keyLt_of_keyLe {a b c : KeyV} (h1 : keyLt a b)
    (h2 : keyLe b c) : keyLt a c := by
  rcases h2 with h2 | rfl
  · exact keyLt_trans h1 h2
  · exact h1

theorem keyLe_trans {a b c : KeyV} (h1 : keyLe a b) (h2 : keyLe b c) :
    keyLe a c := by
  rcases h1 with h1 | rfl
  · exact Or.inl (keyLt_of_keyLt_of_keyLe h1 h2)
  · exact h2

theorem not_keyLe_iff {a b : KeyV} : ¬ keyLe a b ↔ keyLt b a := by
  constructor
  · intro h
    rcases keyLt_total a b with h1 | rfl | h1
    · exact absurd (Or.inl h1) h
    · exact absurd (keyLe_refl a) h
    · exact h1
  · intro h hle
    rcases hle with h1 | rfl
    · exact keyLt_asymm h1 h
    · exact keyLt_irrefl a h

theorem not_keyLt_iff {a b : KeyV} : ¬ keyLt a b ↔ keyLe b a := by
  constructor
  · intro h
    rcases keyLt_total a b with h1 | rfl | h1
    · exact absurd h1 h
    · exact keyLe_refl a
    · exact Or.inl h1
  · intro h h1
    rcases h with h2 | rfl
    · exact keyLt_asymm h2 h1
    · exact keyLt_irrefl _ h1

/-! ### Theorems about the superblock (claim C2) -/

theorem byteAt_drop (l : List Nat) (n i : Nat) :
    byteAt (l.drop n) i = byteAt l (n + i) := by
  simp [byteAt, List.getD, List.getElem?_drop]

theorem toLE32_length (v : Nat) : (toLE32 v).length = 4 := toLE_length v 4

theorem sbOverBase_length : sbOverBase.length = 4096 := by
  unfold sbOverBase BTRFS_MAGIC
  simp only [List.length_append, List.length_replicate, toLE32_length,
    List.length_cons, List.length_nil]

theorem sbOver_length : sbOver.length = 4096 := by
  unfold sbOver
  rw [List.length_append, toLE32_length, List.length_drop, sbOverBase_length]

theorem sbOver_drop (n : Nat) (h : 4 ≤ n) :
    sbOver.drop n = sbOverBase.drop n := by
  unfold sbOver
  rw [drop_append_of_le _ _ _ (by rw [toLE32_length]; omega), toLE32_length,
    List.drop_drop]
  congr 1
  omega

theorem sbOver_byteAt (i : Nat) (h : 4 ≤ i) :
    byteAt sbOver i = byteAt sbOverBase i := by
  unfold sbOver
  rw [byteAt_append_right _ _ _ (by rw [toLE32_length]; omega), toLE32_length,
    byteAt_drop]
  congr 1
  omega

theorem sbOver_take : sbOver.take SUPERBLOCK_SIZE = sbOver := by
  have := sbOver_length
  rw [show SUPERBLOCK_SIZE = sbOver.length from this.symm, List.take_length]

set_option maxRecDepth 6000 in
theorem sbOver_sysSize : SuperblockV.sysChunkArraySize ⟨sbOver⟩ = 3000 := by
  show readLE32 sbOver 0xA0 = 3000
  simp only [readLE32, readLE]
  norm_num
  rw [sbOver_byteAt 160 (by norm_num), sbOver_byteAt 161 (by norm_num),
    sbOver_byteAt 162 (by norm_num), sbOver_byteAt 163 (by norm_num)]
  decide

set_option maxRecDepth 6000 in
theorem sbOver_parse_ok : superblockParse sbOver = .ok ⟨sbOver⟩ := by
  have hmagic : extract sbOver 0x40 0x48 = BTRFS_MAGIC := by
    unfold extract
    rw [sbOver_drop 0x40 (by norm_num)]
    decide
  have hcsum : readLE16 sbOver 0xC4 = 0 := by
    simp only [readLE16, readLE]
    norm_num
    rw [sbOver_byteAt 196 (by norm_num), sbOver_byteAt 197 (by norm_num)]
    decide
  have hexp : readLE32 sbOver 0 = crc32c (sbOverBase.drop 0x20) := by
    unfold sbOver toLE32
    exact readLE_toLE_append _ 4 _
      (by have := crc32c_lt (sbOverBase.drop 0x20); norm_num; omega)
  have hact : extract sbOver 0x20 SUPERBLOCK_SIZE = sbOverBase.drop 0x20 := by
    unfold extract
    rw [sbOver_drop 0x20 (by norm_num)]
    have hlen : (sbOverBase.drop 0x20).length = 4064 := by
      rw [List.length_drop, sbOverBase_length]
    rw [show SUPERBLOCK_SIZE - 0x20 = 4064 by unfold SUPERBLOCK_SIZE; norm_num,
      ← hlen, List.take_length]
  unfold superblockParse
  rw [if_neg (by rw [sbOver_length]; simp [SUPERBLOCK_SIZE])]
  rw [sbOver_take, if_neg (by simp [hmagic])]
  rw [if_neg (by show ¬ (SuperblockV.csumType ⟨sbOver⟩ ≠ 0); simp [SuperblockV.csumType, hcsum])]
  rw [if_neg (by rw [hexp, hact]; simp)]

/-- Claim C2, counterexample: a superblock image on which every
validation step of `Superblock::parse` succeeds (magic, csum type,
checksum), yet the `sys_chunk_array()` accessor does not yield a slice of
length `sys_chunk_array_size` — it panics, because the declared size 3000
exceeds the 0x800-byte backing field. -/
theorem C2_counterexample_sys_chunk_array :
    superblockParse sbOver = .ok ⟨sbOver⟩ ∧
    SuperblockV.sysChunkArraySize ⟨sbOver⟩ = 3000 ∧
    SuperblockV.sysChunkArray ⟨sbOver⟩ = .panic := by
  refine ⟨sbOver_parse_ok, sbOver_sysSize, ?_⟩
  unfold SuperblockV.sysChunkArray
  rw [sbOver_sysSize]
  norm_num

/-- Claim C2 (amended): `Superblock::read` reads 4096 bytes at physical
offset 0x10000 and parses them; `parse` fails INVALID_MAGIC when the 8
bytes at 0x40 differ from `"_BHRfS_M"` (checked first), then
UNSUPPORTED_FEATURE when csum_type (u16 at 0xC4) is nonzero, then
CHECKSUM_MISMATCH{expected, actual} when the little-endian u32 in the
first 4 bytes differs from the CRC32c of bytes [0x20, 0x1000); otherwise
it succeeds and exposes the accessors — with the amendment that the
`sys_chunk_array` accessor yields a slice of length
`sys_chunk_array_size` only when that size is at most 0x800, and panics
on a larger declared size. -/
theorem C2_superblock_read_validation (dev : Nat → Nat) (data : List Nat)
    (hlen : data.length = SUPERBLOCK_SIZE) :
    superblockRead dev =
      superblockParse ((List.range SUPERBLOCK_SIZE).map
        (fun i => dev (SUPERBLOCK_OFFSET + i))) ∧
    (extract data 0x40 0x48 ≠ BTRFS_MAGIC →
      superblockParse data = .err .invalidMagic) ∧
    (extract data 0x40 0x48 = BTRFS_MAGIC → readLE16 data 0xC4 ≠ 0 →
      superblockParse data = .err .unsupportedFeature) ∧
    (extract data 0x40 0x48 = BTRFS_MAGIC → readLE16 data 0xC4 = 0 →
      readLE32 data 0 ≠ crc32c (extract data 0x20 SUPERBLOCK_SIZE) →
      superblockParse data =
        .err (.checksumMismatch (readLE32 data 0)
          (crc32c (extract data 0x20 SUPERBLOCK_SIZE)))) ∧
    (extract data 0x40 0x48 = BTRFS_MAGIC → readLE16 data 0xC4 = 0 →
      readLE32 data 0 = crc32c (extract data 0x20 SUPERBLOCK_SIZE) →
      superblockParse data = .ok ⟨data⟩ ∧
      SuperblockV.generation ⟨data⟩ = readLE64 data 0x48 ∧
      SuperblockV.nodeSize ⟨data⟩ = readLE32 data 0x94 ∧
      SuperblockV.totalBytes ⟨data⟩ = readLE64 data 0x70 ∧
      (SuperblockV.sysChunkArraySize ⟨data⟩ ≤ 0x800 →
        SuperblockV.sysChunkArray ⟨data⟩ =
          .ok (extract data 0x32B (0x32B + SuperblockV.sysChunkArraySize ⟨data⟩)) ∧
        (extract data 0x32B
          (0x32B + SuperblockV.sysChunkArraySize ⟨data⟩)).length =
          SuperblockV.sysChunkArraySize ⟨data⟩) ∧
      (0x800 < SuperblockV.sysChunkArraySize ⟨data⟩ →
        SuperblockV.sysChunkArray ⟨data⟩ = .panic)) := by
  have htake : data.take SUPERBLOCK_SIZE = data := by
    rw [← hlen, List.take_length]
  have hnlt : ¬ (data.length < SUPERBLOCK_SIZE) := by omega
  refine ⟨rfl, ?_, ?_, ?_, ?_⟩
  · intro hm
    unfold superblockParse
    rw [if_neg hnlt, htake, if_pos hm]
  · intro hm hc
    unfold superblockParse
    rw [if_neg hnlt, htake, if_neg (by simp [hm]),
      if_pos (by simpa [SuperblockV.csumType] using hc)]
  · intro hm hc hx
    unfold superblockParse
    rw [if_neg hnlt, htake, if_neg (by simp [hm]),
      if_neg (by simp [SuperblockV.csumType, hc]), if_pos hx]
  · intro hm hc hx
    refine ⟨?_, rfl, rfl, rfl, ?_, ?_⟩
    · unfold superblockParse
      rw [if_neg hnlt, htake, if_neg (by simp [hm]),
        if_neg (by simp [SuperblockV.csumType, hc]), if_neg (by simp [hx])]
    · intro hs
      unfold SuperblockV.sysChunkArray
      rw [if_pos hs]
      refine ⟨rfl, ?_⟩
      unfold extract
      rw [List.length_take, List.length_drop, hlen]
      unfold SUPERBLOCK_SIZE
      omega
    · intro hs
      unfold SuperblockV.sysChunkArray
      rw [if_neg (by omega)]

set_option maxRecDepth 6000 in
/-- Claim C2, witness: the all-zero 4096-byte image fails the magic
check, so `parse` reports INVALID_MAGIC. -/
theorem C2_superblock_read_validation_witness :
    superblockParse (List.replicate 4096 0) = .err .invalidMagic := by
  exact (C2_superblock_read_validation (fun _ => 0) (List.replicate 4096 0)
    (by rw [List.length_replicate]; rfl)).2.1 (by decide)

/-! ### Theorems about chunk translation (claim C1) -/

/-- Claim C1, counterexample: `logical_to_physical` returns bare
physical offsets (`Vec<u64>`), not `(devid, physical)` pairs — two chunk
maps that differ only in stripe device ids produce identical return
values, while the spec-level pair-returning translation distinguishes
them. So no entry of the return value carries the selected stripe's
devid. -/
theorem C1_counterexample_devid :
    logicalToPhysical chunksDevA 0x1000040 =
      logicalToPhysical chunksDevB 0x1000040 ∧
    logicalToPhysical chunksDevA 0x1000040 = .ok [0x100040, 0x20000040] ∧
    logicalToPhysicalSpec chunksDevA 0x1000040 =
      .ok [(1, 0x100040), (2, 0x20000040)] ∧
    logicalToPhysicalSpec chunksDevB 0x1000040 =
      .ok [(7, 0x100040), (8, 0x20000040)] ∧
    logicalToPhysicalSpec chunksDevA 0x1000040 ≠
      logicalToPhysicalSpec chunksDevB 0x1000040 := by
  refine ⟨by decide, by decide, by decide, by decide, by decide⟩

/-- Claim C1 (amended): the candidate chunk is the one with the greatest
`logical ≤ addr`; NOT_FOUND when there is none or `addr` lies past its
range; otherwise, with `off = addr − chunk.logical`, the returned list
holds plain physical offsets (no devid): for a chunk with neither the
RAID0 nor the RAID1/DUP bit and at least one stripe, exactly
`[stripes[0].offset + off]`; for DUP/RAID1, one offset
`stripes[i].offset + off` per stripe; for RAID0 (nonzero stripe length
and stripe count, index in range), the single striped offset
`stripes[idx].offset + (stripe_nr / num_stripes) * stripe_len +
stripe_off`. -/
theorem C1_logical_to_physical_offsets (chunks : List (Nat × ChunkMappingV))
    (addr : Nat) :
    (findChunk chunks addr = none →
      logicalToPhysical chunks addr = .err .notFound) ∧
    (∀ k c, findChunk chunks addr = some (k, c) →
      (c.logical + c.size ≤ addr →
        logicalToPhysical chunks addr = .err .notFound) ∧
      (addr < c.logical + c.size →
        (c.typeFlags &&& CT_RAID0 = 0 →
          c.typeFlags &&& (CT_RAID1 ||| CT_DUP) = 0 →
          ∀ s rest, c.stripes = s :: rest →
            logicalToPhysical chunks addr =
              .ok [s.offset + (addr - c.logical)]) ∧
        (c.typeFlags &&& CT_RAID0 = 0 →
          c.typeFlags &&& (CT_RAID1 ||| CT_DUP) ≠ 0 → c.stripes ≠ [] →
          logicalToPhysical chunks addr =
            .ok (c.stripes.map (fun s => s.offset + (addr - c.logical)))) ∧
        (c.typeFlags &&& CT_RAID0 ≠ 0 → c.stripeLen ≠ 0 → c.numStripes ≠ 0 →
          ∀ h : (addr - c.logical) / c.stripeLen % c.numStripes <
              c.stripes.length,
            logicalToPhysical chunks addr =
              .ok [(c.stripes.get
                  ⟨(addr - c.logical) / c.stripeLen % c.numStripes, h⟩).offset +
                ((addr - c.logical) / c.stripeLen / c.numStripes) * c.stripeLen +
                (addr - c.logical) % c.stripeLen]))) := by
  constructor
  · intro hnone
    unfold logicalToPhysical
    rw [hnone]
  · intro k c hsome
    constructor
    · intro hout
      unfold logicalToPhysical
      rw [hsome]
      dsimp only
      rw [if_pos hout]
    · intro hin
      refine ⟨?_, ?_, ?_⟩
      · intro h0 h1 s rest hs
        unfold logicalToPhysical
        rw [hsome]
        dsimp only
        rw [if_neg (by omega), if_neg (by simp [h0]), if_neg (by simp [h1]),
          hs]
        simp [List.head?]
      · intro h0 h1 hne
        unfold logicalToPhysical
        rw [hsome]
        dsimp only
        rw [if_neg (by omega), if_neg (by simp [h0]), if_pos h1]
        simp only [List.isEmpty_eq_true, List.map_eq_nil_iff]
        rw [if_neg hne]
      · intro h0 hsl hns h
        unfold logicalToPhysical
        rw [hsome]
        dsimp only
        rw [if_neg (by omega), if_pos h0, if_neg (by omega)]
        simp only [dif_pos h]
        simp

/-- Claim C1, witness (spec scenario S5): a single-stripe chunk at
logical 0x1000000 with stripe offset 0x100000 maps 0x1000040 to the one
offset 0x100040. -/
theorem C1_logical_to_physical_offsets_witness :
    logicalToPhysical chunksSingle 0x1000040 = .ok [0x100040] := by
  have h := (C1_logical_to_physical_offsets chunksSingle 0x1000040).2
    0x1000000 (⟨0x1000000, 0x10000000, 0x10000, 1, 1, 0, [⟨1, 0x100000, []⟩]⟩)
    (by decide)
  have h2 := (h.2 (by decide)).1 (by decide) (by decide)
    ⟨1, 0x100000, []⟩ [] (by decide)
  simpa using h2

/-! ### Theorems about the iterator (claim C4) -/

/-- Claim C4, evaluation at the failing input: on a well-formed tree with
two leaves, `iter()` yields only the leftmost leaf's item and then
terminates (the source pops the exhausted leaf and returns `None` at the
`TODO: Implement sibling traversal`), so it does not yield every item of
the tree. -/
theorem C4_iter_stops_after_leftmost_leaf :
    wfNode twoLeafTree = true ∧
    inorderNode twoLeafTree =
      [(⟨⟨1, 1, 0⟩, 0, 0⟩, [1]), (⟨⟨2, 1, 0⟩, 0, 0⟩, [2])] ∧
    treeIterItems twoLeafTree 10 = [(⟨⟨1, 1, 0⟩, 0, 0⟩, [1])] ∧
    treeIterItems twoLeafTree 10 ≠ inorderNode twoLeafTree := by
  refine ⟨by decide, by decide, by decide, by decide⟩

/-! ### Theorems about point search descent (claim C5) -/

theorem greatestLe_cons (p : KeyV × NodeV) (rest : List (KeyV × NodeV))
    (key : KeyV) :
    greatestLe (p :: rest) key =
      match greatestLe rest key with
      | none => if keyLe p.1 key then some p else none
      | some q => if keyLe p.1 key ∧ keyLt q.1 p.1 then some p else some q :=
  rfl

theorem greatestLe_le (l : List (KeyV × NodeV)) (key : KeyV)
    (q : KeyV × NodeV) (h : greatestLe l key = some q) : keyLe q.1 key := by
  induction l generalizing q with
  | nil => simp [greatestLe] at h
  | cons p rest ih =>
    rw [greatestLe_cons] at h
    cases hrest : greatestLe rest key with
    | none =>
      rw [hrest] at h
      dsimp only at h
      split_ifs at h with hp
      · obtain rfl : p = q := Option.some.inj h
        exact hp
    | some q2 =>
      rw [hrest] at h
      dsimp only at h
      split_ifs at h with hc
      · obtain rfl : p = q := Option.some.inj h
        exact hc.1
      · obtain rfl : q2 = q := Option.some.inj h
        exact ih _ hrest

theorem greatestLe_isSome (l : List (KeyV × NodeV)) (key : KeyV)
    (p : KeyV × NodeV) (hp : p ∈ l) (hle : keyLe p.1 key) :
    ∃ q, greatestLe l key = some q := by
  induction l with
  | nil => cases hp
  | cons p0 rest ih =>
    rw [greatestLe_cons]
    cases hrest : greatestLe rest key with
    | none =>
      dsimp only
      rcases List.mem_cons.mp hp with rfl | hpm
      · rw [if_pos hle]; exact ⟨_, rfl⟩
      · obtain ⟨q2, hq2⟩ := ih hpm
        rw [hrest] at hq2
        cases hq2
    | some q2 =>
      dsimp only
      by_cases hc : keyLe p0.1 key ∧ keyLt q2.1 p0.1
      · rw [if_pos hc]; exact ⟨_, rfl⟩
      · rw [if_neg hc]; exact ⟨_, rfl⟩

theorem greatestLe_max (l : List (KeyV × NodeV)) (key : KeyV)
    (q : KeyV × NodeV) (h : greatestLe l key = some q)
    (p : KeyV × NodeV) (hp : p ∈ l) (hple : keyLe p.1 key) :
    keyLe p.1 q.1 := by
  induction l generalizing q with
  | nil => cases hp
  | cons p0 rest ih =>
    rw [greatestLe_cons] at h
    cases hrest : greatestLe rest key with
    | none =>
      rw [hrest] at h
      dsimp only at h
      split_ifs at h with hp0
      · obtain rfl : p0 = q := Option.some.inj h
        rcases List.mem_cons.mp hp with rfl | hpm
        · exact keyLe_refl _
        · obtain ⟨q2, hq2⟩ := greatestLe_isSome rest key p hpm hple
          rw [hrest] at hq2
          cases hq2
    | some q2 =>
      rw [hrest] at h
      dsimp only at h
      split_ifs at h with hc
      · obtain rfl : p0 = q := Option.some.inj h
        rcases List.mem_cons.mp hp with rfl | hpm
        · exact keyLe_refl _
        · exact keyLe_trans (ih q2 hrest hpm) (keyLe_of_keyLt hc.2)
      · obtain rfl : q2 = q := Option.some.inj h
        rcases List.mem_cons.mp hp with rfl | hpm
        · have hnlt : ¬ keyLt q2.1 p.1 := fun hlt => hc ⟨hple, hlt⟩
          exact not_keyLt_iff.mp hnlt
        · exact ih _ hrest hpm

theorem greatestLe_none_of_all_gt (l : List (KeyV × NodeV)) (key : KeyV)
    (h : ∀ p ∈ l, keyLt key p.1) : greatestLe l key = none := by
  induction l with
  | nil => rfl
  | cons p0 rest ih =>
    rw [greatestLe_cons, ih (fun p hp => h p (List.mem_cons_of_mem _ hp))]
    dsimp only
    rw [if_neg (not_keyLe_iff.mpr (h p0 (List.mem_cons_self _ _)))]

/-- The key-pointer scan of `search_from` descends into the child of the
greatest pointer key `≤ target` when one exists, and otherwise falls back
to the current (first) child. -/
theorem searchLoop_greatestLe (cur : NodeV) (curKey : KeyV)
    (rest : List (KeyV × NodeV)) (key : KeyV)
    (hs : List.Pairwise keyLt (((curKey, cur) :: rest).map Prod.fst)) :
    searchLoop cur rest key =
      searchFrom (match greatestLe ((curKey, cur) :: rest) key with
        | some q => q.2
        | none => cur) key := by
  induction rest generalizing curKey cur with
  | nil =>
    simp only [searchLoop]
    rw [greatestLe_cons]
    dsimp only [greatestLe]
    by_cases hp : keyLe curKey key
    · rw [if_pos hp]
    · rw [if_neg hp]
  | cons p2 rest2 ih =>
    obtain ⟨k2, c2⟩ := p2
    simp only [searchLoop]
    simp only [List.map_cons, List.pairwise_cons] at hs
    by_cases hbr : keyLt key k2
    · rw [if_pos hbr]
      have htail : greatestLe ((k2, c2) :: rest2) key = none := by
        apply greatestLe_none_of_all_gt
        intro p hp
        rcases List.mem_cons.mp hp with rfl | hp2
        · exact hbr
        · exact keyLt_trans hbr (hs.2.1 p.1 (List.mem_map_of_mem Prod.fst hp2))
      rw [greatestLe_cons, htail]
      dsimp only
      by_cases hcur : keyLe curKey key
      · rw [if_pos hcur]
      · rw [if_neg hcur]
    · rw [if_neg hbr]
      have hk2 : keyLe k2 key := not_keyLt_iff.mp hbr
      have htailpw : List.Pairwise keyLt (((k2, c2) :: rest2).map Prod.fst) := by
        simp only [List.map_cons, List.pairwise_cons]
        exact hs.2
      rw [ih c2 k2 htailpw]
      obtain ⟨q, hq⟩ :=
        greatestLe_isSome ((k2, c2) :: rest2) key (k2, c2)
          (List.mem_cons_self _ _) hk2
      have hq1 : keyLe k2 q.1 :=
        greatestLe_max _ _ _ hq (k2, c2) (List.mem_cons_self _ _) hk2
      have hck2 : keyLt curKey k2 := hs.1 k2 (by simp)
      have hno : ¬ (keyLe curKey key ∧ keyLt q.1 curKey) := by
        rintro ⟨_, hlt⟩
        exact keyLt_irrefl k2
          (keyLt_of_keyLe_of_keyLt hq1 (keyLt_trans hlt hck2))
      rw [hq, greatestLe_cons, hq]
      dsimp only
      rw [if_neg hno]

/-- Claim C5, counterexample: with a single key pointer whose key
(10,0,0) exceeds the target (1,0,0) — so no key-pointer key is `≤` the
target — `search_from` does not fail CORRUPT: it descends into that
first child and returns its matching item; and with zero key pointers it
panics (`ptrs[0]` out of bounds) rather than failing CORRUPT. -/
theorem C5_counterexample_no_corrupt :
    searchFrom highRoot ⟨1, 0, 0⟩ = .ok (some (⟨⟨1, 0, 0⟩, 0, 0⟩, [7])) ∧
    (∀ e, searchFrom highRoot ⟨1, 0, 0⟩ ≠ .err e) ∧
    searchFrom (.internal []) ⟨1, 0, 0⟩ = .panic := by
  have h : searchFrom highRoot ⟨1, 0, 0⟩ =
      .ok (some (⟨⟨1, 0, 0⟩, 0, 0⟩, [7])) := by
    simp +decide [highRoot, lowLeaf, searchFrom, searchLoop, leafFind]
  exact ⟨h, fun e => by rw [h]; simp, by simp [searchFrom]⟩

/-- Claim C5 (amended): at an internal node with sorted key-pointer
keys, `search(key)` descends into the child of the greatest key-pointer
whose key is `≤ target`; when no key-pointer key is `≤ target` it
descends into the first child (not CORRUPT); and an internal node with
zero key-pointers is an out-of-bounds panic (not CORRUPT). -/
theorem C5_search_internal_descent (ptrs : List (KeyV × NodeV))
    (key : KeyV) :
    searchFrom (.internal []) key = .panic ∧
    (∀ k c rest, ptrs = (k, c) :: rest →
      List.Pairwise keyLt (ptrs.map Prod.fst) →
      (greatestLe ptrs key = none →
        searchFrom (.internal ptrs) key = searchFrom c key) ∧
      (∀ kg cg, greatestLe ptrs key = some (kg, cg) →
        searchFrom (.internal ptrs) key = searchFrom cg key)) := by
  constructor
  · simp [searchFrom]
  · rintro k c rest rfl hp
    have hbase : searchFrom (.internal ((k, c) :: rest)) key =
        searchLoop c rest key := by
      simp [searchFrom]
    have hchar := searchLoop_greatestLe c k rest key hp
    constructor
    · intro hnone
      rw [hbase, hchar, hnone]
    · intro kg cg hsome
      rw [hbase, hchar, hsome]

/-- Claim C5, witness: on a sorted two-pointer internal node with
pointer keys (1,1,0) and (2,1,0) and target (2,1,5), the greatest
pointer key `≤ target` is (2,1,0), and search descends into its child. -/
theorem C5_search_internal_descent_witness :
    searchFrom twoLeafTree ⟨2, 1, 5⟩ = searchFrom leafOneB ⟨2, 1, 5⟩ := by
  have h := (C5_search_internal_descent
    [(⟨1, 1, 0⟩, leafOneA), (⟨2, 1, 0⟩, leafOneB)] ⟨2, 1, 5⟩).2
    ⟨1, 1, 0⟩ leafOneA [(⟨2, 1, 0⟩, leafOneB)] rfl (by decide)
  exact h.2 ⟨2, 1, 0⟩ leafOneB rfl

/-! ### Theorems about range search (claim C6) -/

theorem wfPtrs_wfNode {k : KeyV} {c : NodeV} {rest : List (KeyV × NodeV)}
    (h : wfPtrs ((k, c) :: rest) = true) : wfNode c = true := by
  simp only [wfPtrs, Bool.and_eq_true] at h
  exact h.1.1.1

theorem wfPtrs_lb {k : KeyV} {c : NodeV} {rest : List (KeyV × NodeV)}
    (h : wfPtrs ((k, c) :: rest) = true) :
    ∀ x ∈ inorderNode c, keyLe k x.1.key := by
  simp only [wfPtrs, Bool.and_eq_true, List.all_eq_true,
    decide_eq_true_eq] at h
  exact h.1.1.2

theorem wfPtrs_rest {k : KeyV} {c : NodeV} {rest : List (KeyV × NodeV)}
    (h : wfPtrs ((k, c) :: rest) = true) : wfPtrs rest = true := by
  simp only [wfPtrs, Bool.and_eq_true] at h
  exact h.2

theorem wfPtrs_next {k k2 : KeyV} {c c2 : NodeV}
    {rest2 : List (KeyV × NodeV)}
    (h : wfPtrs ((k, c) :: (k2, c2) :: rest2) = true) :
    keyLt k k2 ∧ ∀ x ∈ inorderNode c, keyLt x.1.key k2 := by
  simp only [wfPtrs, Bool.and_eq_true, List.all_eq_true,
    decide_eq_true_eq] at h
  exact h.1.2

mutual
/-- Under well-formedness, the range scan of a node returns exactly the
in-order items inside the closed range. -/
theorem searchRangeFrom_eq_filter :
    ∀ (n : NodeV) (a b : KeyV), wfNode n = true →
      searchRangeFrom n a b = (inorderNode n).filter (inRangeB a b)
  | .leaf items, a, b, h => rfl
  | .internal ptrs, a, b, h => by
    have := searchRangeList_eq_filter ptrs a b (by simpa [wfNode] using h)
    simpa [searchRangeFrom, inorderNode] using this

/-- List form of `searchRangeFrom_eq_filter`. -/
theorem searchRangeList_eq_filter :
    ∀ (l : List (KeyV × NodeV)) (a b : KeyV), wfPtrs l = true →
      searchRangeList l a b = (inorderList l).filter (inRangeB a b)
  | [], _, _, _ => rfl
  | (k, c) :: rest, a, b, h => by
    have hc := searchRangeFrom_eq_filter c a b (wfPtrs_wfNode h)
    have hrest := searchRangeList_eq_filter rest a b (wfPtrs_rest h)
    simp only [searchRangeList, inorderList, List.filter_append]
    rw [hrest]
    by_cases hkb : keyLe k b
    · rw [if_pos hkb, hc]
    · rw [if_neg hkb]
      have hnil : (inorderNode c).filter (inRangeB a b) = [] := by
        rw [List.filter_eq_nil_iff]
        intro x hx
        have hkx : keyLe k x.1.key := wfPtrs_lb h x hx
        have hbk : keyLt b k := not_keyLe_iff.mp hkb
        have hlt : keyLt b x.1.key := keyLt_of_keyLt_of_keyLe hbk hkx
        simp only [inRangeB, Bool.and_eq_true, decide_eq_true_eq, not_and]
        intro _
        exact not_keyLe_iff.mpr hlt
      rw [hnil]
end

/-- Keys of the key-pointer list are pairwise increasing under
well-formedness. -/
theorem wfPtrs_keys_pairwise (l : List (KeyV × NodeV))
    (h : wfPtrs l = true) : List.Pairwise keyLt (l.map Prod.fst) := by
  induction l with
  | nil => simp
  | cons p rest ih =>
    obtain ⟨k, c⟩ := p
    simp only [List.map_cons, List.pairwise_cons]
    refine ⟨?_, ih (wfPtrs_rest h)⟩
    intro k2 hk2
    cases rest with
    | nil => simp at hk2
    | cons p2 rest2 =>
      obtain ⟨k2h, c2h⟩ := p2
      have hkk2 : keyLt k k2h := (wfPtrs_next h).1
      have hrestpw := ih (wfPtrs_rest h)
      simp only [List.map_cons, List.pairwise_cons] at hrestpw
      simp only [List.map_cons, List.mem_cons] at hk2
      rcases hk2 with rfl | hk2m
      · exact hkk2
      · exact keyLt_trans hkk2 (hrestpw.1 k2 hk2m)

/-- Every key in the subtrees of a key-pointer list is bounded below by
any lower bound of all the pointer keys. -/
theorem inorderList_lb (l : List (KeyV × NodeV)) (h : wfPtrs l = true)
    (k0 : KeyV) (hk : ∀ p ∈ l, keyLe k0 p.1) :
    ∀ x ∈ inorderList l, keyLe k0 x.1.key := by
  induction l with
  | nil => simp [inorderList]
  | cons p rest ih =>
    obtain ⟨k, c⟩ := p
    intro x hx
    simp only [inorderList, List.mem_append] at hx
    rcases hx with hx | hx
    · exact keyLe_trans (hk (k, c) (List.mem_cons_self _ _)) (wfPtrs_lb h x hx)
    · exact ih (wfPtrs_rest h)
        (fun p hp => hk p (List.mem_cons_of_mem _ hp)) x hx

mutual
/-- Under well-formedness, the in-order items of a node are strictly
sorted by key. -/
theorem wf_inorder_pairwise :
    ∀ (n : NodeV), wfNode n = true →
      List.Pairwise (fun x y : ItemV × List Nat => keyLt x.1.key y.1.key)
        (inorderNode n)
  | .leaf items, h => by
    simp only [wfNode, decide_eq_true_eq] at h
    rw [List.pairwise_map] at h
    exact h
  | .internal ptrs, h => by
    have := wf_inorderList_pairwise ptrs (by simpa [wfNode] using h)
    simpa [inorderNode] using this

/-- List form of `wf_inorder_pairwise`. -/
theorem wf_inorderList_pairwise :
    ∀ (l : List (KeyV × NodeV)), wfPtrs l = true →
      List.Pairwise (fun x y : ItemV × List Nat => keyLt x.1.key y.1.key)
        (inorderList l)
  | [], _ => by simp [inorderList]
  | (k, c) :: rest, h => by
    have h1 := wf_inorder_pairwise c (wfPtrs_wfNode h)
    have h2 := wf_inorderList_pairwise rest (wfPtrs_rest h)
    simp only [inorderList, List.pairwise_append]
    refine ⟨h1, h2, ?_⟩
    intro x hx y hy
    cases rest with
    | nil => simp [inorderList] at hy
    | cons p2 rest2 =>
      obtain ⟨k2, c2⟩ := p2
      have hxk2 : keyLt x.1.key k2 := (wfPtrs_next h).2 x hx
      have hk2y : keyLe k2 y.1.key := by
        apply inorderList_lb ((k2, c2) :: rest2) (wfPtrs_rest h) k2 ?_ y hy
        intro p hp
        have hpw := wfPtrs_keys_pairwise ((k2, c2) :: rest2) (wfPtrs_rest h)
        simp only [List.map_cons, List.pairwise_cons] at hpw
        rcases List.mem_cons.mp hp with rfl | hpm
        · exact keyLe_refl _
        · exact keyLe_of_keyLt (hpw.1 p.1 (List.mem_map_of_mem Prod.fst hpm))
      exact keyLt_of_keyLt_of_keyLe hxk2 hk2y
end

/-- Claim C6: on a well-formed tree and for keys `a ≤ b`,
`search_range(a, b)` returns exactly the items whose key lies in the
closed interval `[a, b]` — it equals the in-order item list filtered to
the range, membership is range membership, and the result is strictly
sorted by key. -/
theorem C6_search_range_exact (n : NodeV) (a b : KeyV)
    (hwf : wfNode n = true) (hab : keyLe a b) :
    searchRangeFrom n a b = (inorderNode n).filter (inRangeB a b) ∧
    (∀ x, x ∈ searchRangeFrom n a b ↔
      x ∈ inorderNode n ∧ keyLe a x.1.key ∧ keyLe x.1.key b) ∧
    List.Pairwise (fun x y : ItemV × List Nat => keyLt x.1.key y.1.key)
      (searchRangeFrom n a b) := by
  have h1 := searchRangeFrom_eq_filter n a b hwf
  refine ⟨h1, ?_, ?_⟩
  · intro x
    rw [h1, List.mem_filter]
    simp [inRangeB]
  · rw [h1]
    exact List.Pairwise.sublist (List.filter_sublist _)
      (wf_inorder_pairwise n hwf)

/-- Claim C6, witness: on the two-leaf fixture tree, the range scan over
[(1,1,0), (9,9,9)] returns both items, in key order. -/
theorem C6_search_range_exact_witness :
    searchRangeFrom twoLeafTree ⟨1, 1, 0⟩ ⟨9, 9, 9⟩ =
      [(⟨⟨1, 1, 0⟩, 0, 0⟩, [1]), (⟨⟨2, 1, 0⟩, 0, 0⟩, [2])] ∧
    List.Pairwise (fun x y : ItemV × List Nat => keyLt x.1.key y.1.key)
      (searchRangeFrom twoLeafTree ⟨1, 1, 0⟩ ⟨9, 9, 9⟩) := by
  have h := C6_search_range_exact twoLeafTree ⟨1, 1, 0⟩ ⟨9, 9, 9⟩
    (by decide) (by decide)
  exact ⟨by rw [h.1]; decide, h.2.2⟩

/-! ### Theorems about the namespace operations (claims C3, C7, C9) -/

set_option maxRecDepth 20000 in
/-- Claim C3, evaluation at the failing input: a DIR_ITEM body packs two
entries ("aa" for inode 300, then "bb" for inode 301) under the hash
bucket of "bb"; the point search finds the item, the body's FIRST packed
entry is "aa", its SECOND packed entry is the byte-exact match "bb" —
yet `lookup` returns NOT_FOUND, because it parses only the first packed
entry instead of iterating the packed list. -/
theorem C3_lookup_checks_only_first_packed_entry :
    searchFrom fsAB.superblockRoot ⟨256, 0x54, btrfsNameHash [98, 98]⟩ =
      .ok (some (⟨⟨256, 0x54, btrfsNameHash [98, 98]⟩, 0, 60⟩, dirBodyAB)) ∧
    dirEntryFromBytes dirBodyAB = .ok ⟨300, 5, .file, [97, 97]⟩ ∧
    dirEntryFromBytes (dirBodyAB.drop 32) = .ok ⟨301, 5, .file, [98, 98]⟩ ∧
    lookup fsAB 5 256 [98, 98] = .err .notFound := by
  have hs : searchFrom fsAB.superblockRoot ⟨256, 0x54, btrfsNameHash [98, 98]⟩ =
      .ok (some (⟨⟨256, 0x54, btrfsNameHash [98, 98]⟩, 0, 60⟩, dirBodyAB)) := by
    simp only [fsAB, searchFrom]
    decide
  refine ⟨hs, by decide, by decide, ?_⟩
  simp only [lookup]
  rw [hs]
  decide

set_option maxRecDepth 20000 in
/-- Claim C7, evaluation at the failing input: inode 256 declares
`size = 3` in a 168-byte inode item (long enough for the otime reads of
`Inode::from_bytes`, which panic on 160- to 167-byte buffers — the
first conjunct exhibits that modelled panic), and its single inline
extent carries 5 payload bytes; `read_file_data(fs, _, 256, 0, 10)`
returns all 5 bytes — more than `min(len, inode.size − offset) = 3` —
and the `offset` argument does not affect the result at all (offset 100
returns the same bytes). -/
theorem C7_read_file_ignores_inode_size :
    inodeFromBytes 256 (List.replicate 160 0) = .panic ∧
    readInode fsInline 0 256 =
      .ok ⟨256, 0, 0, 3, 0, 0, 0, 0, 0, 0, 0, 0, 0,
        ⟨0, 0⟩, ⟨0, 0⟩, ⟨0, 0⟩, ⟨0, 0⟩⟩ ∧
    readFileData fsInline 0 256 0 10 = .ok [10, 20, 30, 40, 50] ∧
    readFileData fsInline 0 256 100 10 = .ok [10, 20, 30, 40, 50] ∧
    min 10 (3 - 0) < 5 := by
  refine ⟨by decide, ?_, by decide, by decide, by decide⟩
  simp only [fsInline, readInode, searchFrom]
  decide

/-- Claim C9: the `tree_id` argument of `read_inode`, `lookup`,
`read_dir`, `read_file_extents` and `read_file_data` is ignored — each
operation searches the tree rooted at the superblock's root-tree address
and level, so any two tree ids give identical results on the same
filesystem state. -/
theorem C9_tree_id_ignored (fs : FsV) (t1 t2 ino dirIno offset size : Nat)
    (name : List Nat) :
    readInode fs t1 ino = readInode fs t2 ino ∧
    lookup fs t1 dirIno name = lookup fs t2 dirIno name ∧
    readDir fs t1 ino = readDir fs t2 ino ∧
    readFileExtents fs t1 ino = readFileExtents fs t2 ino ∧
    readFileData fs t1 ino offset size = readFileData fs t2 ino offset size :=
  ⟨rfl, rfl, rfl, rfl, rfl⟩

/-- Claim C10: under the precondition
`101 + item.offset + item.size ≤ node.data.len()`, `item_data` returns
exactly the byte slice `[101 + offset, 101 + offset + size)` (of length
`item.size`); outside the precondition the function panics — it has no
CORRUPT error path. -/
theorem C10_item_data_exact_slice (node : TreeNodeV) (item : ItemV) :
    (101 + item.offset + item.size ≤ node.data.length →
      itemData node item =
        .ok ((node.data.drop (101 + item.offset)).take item.size) ∧
      ((node.data.drop (101 + item.offset)).take item.size).length =
        item.size) ∧
    (node.data.length < 101 + item.offset + item.size →
      itemData node item = .panic ∧ ∀ e, itemData node item ≠ .err e) := by
  constructor
  · intro h
    constructor
    · unfold itemData NODE_HEADER_SIZE extract
      rw [if_pos (by omega)]
      have : 101 + item.offset + item.size - (101 + item.offset) =
          item.size := by omega
      rw [this]
    · rw [List.length_take, List.length_drop]
      omega
  · intro h
    have hp : itemData node item = .panic := by
      unfold itemData NODE_HEADER_SIZE
      rw [if_neg (by omega)]
    exact ⟨hp, fun e => by rw [hp]; simp⟩

/-- Claim C10, witness: with a 106-byte buffer and an item at offset 1
of size 3, `item_data` returns the bytes 2, 3, 4. -/
theorem C10_item_data_exact_slice_witness :
    itemData demoNode ⟨⟨0, 0, 0⟩, 1, 3⟩ = .ok [2, 3, 4] := by
  have h := (C10_item_data_exact_slice demoNode ⟨⟨0, 0, 0⟩, 1, 3⟩).1
    (by decide)
  rw [h.1]
  decide

/-! ### Theorems about the compression dispatch (claim C8) -/

theorem readLE_append_right (pre l : List Nat) (off n : Nat)
    (h : pre.length ≤ off) :
    readLE (pre ++ l) off n = readLE l (off - pre.length) n := by
  induction n generalizing off with
  | zero => rfl
  | succ n ih =>
    simp only [readLE]
    rw [byteAt_append_right pre l off h, ih (off + 1) (by omega),
      show off + 1 - pre.length = off - pre.length + 1 by omega]

/-- Decompressing the output of `compress_lzo` with `decompress_lzo`
recovers the input, given the LZ4 primitive's round-trip contract. -/
theorem decompressLzo_compressLzo (cx : Codecs) (S clz : List Nat)
    (hlne : clz ≠ []) (hllen : clz.length < 2 ^ 32)
    (hld : cx.lz4Decompress clz S.length = some S) :
    decompressLzo cx
      (toLE32 ((4 + 4 + clz.length) % 2 ^ 32) ++
        toLE32 (clz.length % 2 ^ 32) ++ clz) S.length = .ok S := by
  set lcomp := toLE32 ((4 + 4 + clz.length) % 2 ^ 32) ++
    toLE32 (clz.length % 2 ^ 32) ++ clz with hlcomp
  have hclen : 1 ≤ clz.length := List.length_pos.mpr hlne
  have hsl : clz.length % 2 ^ 32 = clz.length := Nat.mod_eq_of_lt hllen
  have hlen : lcomp.length = 8 + clz.length := by
    rw [hlcomp]
    simp [toLE32_length]
    omega
  have hread : readLE32 lcomp 4 = clz.length := by
    rw [hlcomp, readLE32, List.append_assoc,
      readLE_append_right _ _ 4 4 (by rw [toLE32_length])]
    rw [toLE32_length]
    have h0 := readLE_toLE_append (clz.length % 2 ^ 32) 4 clz
      (by rw [hsl]; exact lt_of_lt_of_eq hllen (by norm_num))
    rw [show (4 : Nat) - 4 = 0 from rfl]
    rw [show toLE32 (clz.length % 2 ^ 32) = toLE (clz.length % 2 ^ 32) 4 from
      rfl, h0, hsl]
  have hseg : extract lcomp 8 (8 + clz.length) = clz := by
    rw [hlcomp, extract,
      drop_append_of_le _ _ 8 (by simp [toLE32_length])]
    simp only [List.length_append, toLE32_length]
    rw [show (8 : Nat) - (4 + 4) = 0 by norm_num, List.drop_zero,
      show 8 + clz.length - 8 = clz.length by omega, List.take_length]
  unfold decompressLzo
  rw [if_neg (by omega)]
  rcases List.eq_nil_or_concat S with rfl | hSne
  · -- S empty: the loop guard fails at once
    rw [lzoLoop]
    rw [dif_neg (by simp)]
  · have hSlen : 0 < S.length := by
      obtain ⟨l2, a, rfl⟩ := hSne
      simp
    rw [lzoLoop]
    rw [dif_pos ⟨by omega, by simpa using hSlen⟩]
    rw [if_neg (by omega)]
    rw [dif_neg (by rw [hread]; omega)]
    rw [show 4 + 4 = 8 from rfl, hread, hseg]
    dsimp only
    rw [hld]
    dsimp only
    rw [List.nil_append]
    rw [lzoLoop]
    rw [dif_neg (by omega)]

/-- Claim C8: for every algorithm in {None, Zlib, LZO, Zstd} and every
byte sequence `S` of at most 1 MiB, the repository's `compress` for the
algorithm succeeds and its `decompress` with the original length
recovers `S` exactly — given the round-trip contracts of the external
zlib, LZ4 and zstd codec crates (for LZ4: the compressed form is
nonempty, shorter than 2^32 bytes, and decodes back to `S`). -/
theorem C8_codec_roundtrip (cx : Codecs) (S : List Nat) (level : Nat)
    (czl clz czs : List Nat)
    (hS : S.length ≤ 2 ^ 20)
    (hzc : cx.zlibCompress S level = some czl)
    (hzd : cx.zlibDecompress czl = some S)
    (hlc : cx.lz4Compress S = some clz)
    (hlne : clz ≠ [])
    (hllen : clz.length < 2 ^ 32)
    (hld : cx.lz4Decompress clz S.length = some S)
    (hsc : cx.zstdCompress S level = some czs)
    (hsd : cx.zstdDecompress czs = some S) :
    (∀ alg : CompressionTypeV, ∃ out, compress cx alg S level = .ok out) ∧
    (∀ alg : CompressionTypeV, ∀ out, compress cx alg S level = .ok out →
      decompress cx alg out S.length = .ok S) := by
  constructor
  · intro alg
    cases alg with
    | none => exact ⟨S, rfl⟩
    | zlib => exact ⟨czl, by simp [compress, hzc]⟩
    | lzo =>
      refine ⟨toLE32 ((4 + 4 + clz.length) % 2 ^ 32) ++
        toLE32 (clz.length % 2 ^ 32) ++ clz, ?_⟩
      simp only [compress, compressLzo, hlc]
    | zstd => exact ⟨czs, by simp [compress, hsc]⟩
  · intro alg out hout
    cases alg with
    | none =>
      cases hout
      rfl
    | zlib =>
      simp only [compress, hzc] at hout
      cases hout
      simp [decompress, hzd]
    | lzo =>
      simp only [compress, compressLzo, hlc] at hout
      cases hout
      exact decompressLzo_compressLzo cx S clz hlne hllen hld
    | zstd =>
      simp only [compress, hsc] at hout
      cases hout
      simp [decompress, hsd]

/-- Claim C8, witness: with trivial codec primitives satisfying the
contracts, the LZO-framed compression of the bytes 1, 2, 3 decompresses
back to them. -/
theorem C8_codec_roundtrip_witness :
    decompress cx0 .lzo (toLE32 12 ++ toLE32 4 ++ [0, 1, 2, 3]) 3 =
      .ok [1, 2, 3] := by
  have h := (C8_codec_roundtrip cx0 [1, 2, 3] 6 [1, 2, 3] [0, 1, 2, 3]
    [1, 2, 3] (by decide) rfl rfl rfl (by decide) (by decide) rfl rfl rfl).2
    .lzo (toLE32 12 ++ toLE32 4 ++ [0, 1, 2, 3]) (by decide)
  exact h

end BtrfsVerify

